import Mathlib

/-!
Shallow embedding of the tabular view engine of the Contacts-View PCF control
(`src/ContactsControl/index.ts`), together with theorems settling the spec
claims about it.

The embedding mirrors `renderTable` (sorting, filtering, pagination),
`highlightText`, `sortTable` and `getSortIndicator` from the source.  JavaScript
strings are modelled as Lean `String`/`List Char`; JavaScript numbers used as
page counters are modelled as `Int` (they are integers in all reachable
states); `getFormattedValue` returning `undefined` is modelled as `Option`.
-/

namespace ContactsControl

/-- A dataset column, as exposed by `context.parameters.sampleDataSet.columns`:
its logical `name` and its `displayName`. -/
structure Column where
  name : String
  displayName : String
  deriving DecidableEq, Repr

/-- The recordset consumed by `renderTable`: the declared columns, the baseline
row order `sortedRecordIds`, and the per-cell formatted-value lookup
`records[rid].getFormattedValue(col)` (`none` models `undefined`). -/
structure DataSet where
  columns : List Column
  sortedRecordIds : List String
  fmtVal : String → String → Option String

/-- Models JavaScript `String.prototype.toLowerCase` (simple one-to-one case
mapping, as in `Char.toLower`). -/
def jsToLower (s : String) : String :=
  String.mk (s.toList.map Char.toLower)

/-- Characters stripped by JavaScript `String.prototype.trim`. -/
def jsWhitespace (c : Char) : Bool :=
  c == ' ' || c == '\t' || c == '\n' || c == '\r' || c == '\x0b' || c == '\x0c'

/-- Models JavaScript `String.prototype.trim`. -/
def jsTrim (s : String) : String :=
  String.mk (((s.toList.dropWhile jsWhitespace).reverse.dropWhile jsWhitespace).reverse)

/-- Line 65 of the source: `this.searchInput.value.trim().toLowerCase()`. -/
def normalizeQuery (raw : String) : String :=
  jsToLower (jsTrim raw)

/-- Substring test on character lists: `hasSub sub l` is true when `sub`
occurs contiguously inside `l`. -/
def hasSub (sub : List Char) : List Char → Bool
  | [] => sub.isEmpty
  | c :: t => sub.isPrefixOf (c :: t) || hasSub sub t

/-- Models JavaScript `s.includes(sub)`. -/
def jsIncludes (s sub : String) : Bool :=
  hasSub sub.toList s.toList

/-- `getFormattedValue(...) || ""`: an absent formatted value is replaced by
the empty string. -/
def fmtOrEmpty (ds : DataSet) (rid colName : String) : String :=
  (ds.fmtVal rid colName).getD ""

/-! ### Sort state machine (`currentSortColumn`, `isAscending`) -/

/-- The control's sort state: `currentSortColumn` (initially `undefined`,
modelled as `none`) and `isAscending`. -/
structure SortState where
  col : Option String
  asc : Bool
  deriving DecidableEq, Repr

/-- The field initializers at lines 10-11 of the source: `currentSortColumn`
is left `undefined` and `isAscending` starts `true`. -/
def initSortState : SortState := ⟨none, true⟩

/-- `sortTable` (lines 185-194): clicking the header of column `c` toggles the
direction when `c` is already the sort column and otherwise selects `c`
ascending. -/
def sortTable (s : SortState) (c : String) : SortState :=
  if s.col = some c then ⟨s.col, !s.asc⟩ else ⟨some c, true⟩

/-- `getSortIndicator` (lines 196-199): `""` unless `c` is the current sort
column, else an ascending or descending mark. -/
def getSortIndicator (s : SortState) (c : String) : String :=
  if s.col = some c then (if s.asc then "▲" else "▼") else ""

/-! ### Highlighting (`highlightText`, lines 179-183)

The source builds `new RegExp("(" + searchQuery + ")", "gi")` from the raw
query and rewrites the value with
`value.replace(regex, "<span class=\"highlight\">$1</span>")`.  We model the
pattern language on the fragment where every query character is either an
ordinary literal character or the wildcard `'.'`; a query containing any other
regex syntax character is outside the modelled fragment (`parseTokens` returns
`none`).  On that boundary the query `"("` genuinely makes the JavaScript
`RegExp` constructor throw a `SyntaxError` (unbalanced group), which `none`
models as the crash of the highlighting operation. -/

/-- Characters with special meaning in a JavaScript regex pattern. -/
def regexMeta (c : Char) : Bool :=
  c == '\\' || c == '^' || c == '$' || c == '.' || c == '*' || c == '+' ||
  c == '?' || c == '(' || c == ')' || c == '[' || c == ']' ||
  c == '\x7b' || c == '\x7d' || c == '|'

/-- A pattern token of the modelled regex fragment: a literal character or
the `'.'` wildcard. -/
inductive RTok where
  | lit (c : Char)
  | dot
  deriving DecidableEq, Repr

/-- Parse the query into pattern tokens; `none` when the query falls outside
the modelled fragment (notably `'('`, which throws in JavaScript). -/
def parseTokens : List Char → Option (List RTok)
  | [] => some []
  | c :: cs =>
    if c = '.' then (parseTokens cs).map (fun ts => RTok.dot :: ts)
    else if regexMeta c then none
    else (parseTokens cs).map (fun ts => RTok.lit c :: ts)

/-- JavaScript line terminators, which `'.'` does not match. -/
def lineTerm (c : Char) : Bool :=
  c == '\n' || c == '\r' || c == '\u2028' || c == '\u2029'

/-- One pattern token against one character; the `i` flag makes literal
matching case-insensitive. -/
def matchTok : RTok → Char → Bool
  | RTok.lit a, c => a.toLower == c.toLower
  | RTok.dot, c => !(lineTerm c)

/-- Try to match the whole token list at the head of `l`; on success return
the matched characters and the remainder. -/
def matchAt : List RTok → List Char → Option (List Char × List Char)
  | [], l => some ([], l)
  | _ :: _, [] => none
  | t :: ts, c :: cs =>
    if matchTok t c then (matchAt ts cs).map (fun p => (c :: p.1, p.2)) else none

/-- A piece of the replacement output: an untouched character or a matched
(highlighted) run. -/
inductive Seg where
  | plain (c : Char)
  | hl (m : List Char)
  deriving DecidableEq, Repr

/-- The opening highlight marker emitted by the replacement template. -/
def hlOpen : List Char := "<span class=\"highlight\">".toList

/-- The closing highlight marker emitted by the replacement template. -/
def hlClose : List Char := "</span>".toList

/-- Render one segment: `$1` keeps the matched text verbatim between the
markers. -/
def renderSeg : Seg → List Char
  | Seg.plain c => [c]
  | Seg.hl m => hlOpen ++ m ++ hlClose

/-- Render the scan output to the final string. -/
def renderSegs (l : List Seg) : String :=
  String.mk (l.foldr (fun s acc => renderSeg s ++ acc) [])

/-- Remove the highlight markers: keep plain characters and the matched runs. -/
def stripSeg : Seg → List Char
  | Seg.plain c => [c]
  | Seg.hl m => m

/-- Remove all highlight markers from a scan output. -/
def stripSegs (l : List Seg) : List Char :=
  l.foldr (fun s acc => stripSeg s ++ acc) []

/-- The global (`g` flag) left-to-right scan of `value.replace`: at each
position try the pattern; on a match emit a highlighted segment and continue
after it, otherwise emit one plain character.  `fuel` bounds the recursion
(callers pass `l.length + 1`, which suffices for a non-empty pattern). -/
def scanFuel : Nat → List RTok → List Char → List Seg
  | 0, _, _ => []
  | fuel + 1, ts, l =>
    match matchAt ts l with
    | some (m, r) => Seg.hl m :: scanFuel fuel ts r
    | none =>
      match l with
      | [] => []
      | c :: cs => Seg.plain c :: scanFuel fuel ts cs

/-- The replacement scan with adequate fuel. -/
def scan (ts : List RTok) (l : List Char) : List Seg :=
  scanFuel (l.length + 1) ts l

/-- `highlightText` (lines 179-183): empty query returns the value unchanged;
otherwise the value is rewritten by the global case-insensitive scan of the
pattern built from the raw query.  `none` models the `RegExp` constructor
throwing. -/
def jsHighlight (value q : String) : Option String :=
  if q = "" then some value
  else
    match parseTokens q.toList with
    | none => none
    | some ts => some (renderSegs (scan ts value.toList))

/-- Spec-side notion: `a` contains `b` as a case-insensitive substring. -/
def containsCI (a b : String) : Bool :=
  jsIncludes (jsToLower a) (jsToLower b)

/-! ### Filtering (lines 91-102) -/

/-- One column's clause of the `columns.some(...)` branch:
`getFormattedValue(column.name)?.toLowerCase().includes(searchQuery)` —
an absent value short-circuits to no match. -/
def colMatches (ds : DataSet) (q rid : String) (c : Column) : Bool :=
  match ds.fmtVal rid c.name with
  | some v => jsIncludes (jsToLower v) q
  | none => false

/-- The `matchesOtherFields` branch alone (lines 97-99). -/
def anyColMatches (ds : DataSet) (q rid : String) : Bool :=
  ds.columns.any (colMatches ds q rid)

/-- The filter predicate of lines 91-102: `matchesFullName || matchesOtherFields`.
The `fullname` branch applies `?.toLowerCase() || ""`, i.e. an absent full
name is compared as the empty string (lowering before or after the default is
the same since `""` lowers to itself). -/
def rowMatches (ds : DataSet) (q rid : String) : Bool :=
  jsIncludes (jsToLower (fmtOrEmpty ds rid "fullname")) q || anyColMatches ds q rid

/-! ### Sorting (lines 79-88) -/

/-- JavaScript keeps `a` before `b` when the comparator result is `<= 0`. -/
def cmpLe (o : Ordering) : Bool :=
  match o with
  | Ordering.gt => false
  | _ => true

/-- The sort key: `getFormattedValue(currentSortColumn) || ""`. -/
def sortKey (ds : DataSet) (colName rid : String) : String :=
  fmtOrEmpty ds rid colName

/-- Lines 79-88: when a sort column is set, stably sort the record ids by the
comparator `recordA.localeCompare(recordB)` (ascending) or
`recordB.localeCompare(recordA)` (descending); otherwise keep the given
order.  `lc` abstracts locale-aware `localeCompare`; JavaScript's
`Array.prototype.sort` is stable, modelled by `List.mergeSort`. -/
def sortRecords (lc : String → String → Ordering) (ds : DataSet)
    (col : Option String) (asc : Bool) : List String :=
  match col with
  | none => ds.sortedRecordIds
  | some c =>
    ds.sortedRecordIds.mergeSort (fun a b =>
      if asc then cmpLe (lc (sortKey ds c a) (sortKey ds c b))
      else cmpLe (lc (sortKey ds c b) (sortKey ds c a)))

/-- The filtered (and previously sorted) record ids of line 91. -/
def filteredRecords (lc : String → String → Ordering) (ds : DataSet)
    (q : String) (col : Option String) (asc : Bool) : List String :=
  (sortRecords lc ds col asc).filter (rowMatches ds q)

/-! ### Pagination (lines 104-110) -/

/-- `recordsPerPage` (line 14). -/
def recordsPerPage : Nat := 13

/-- JavaScript `x || d` on numbers: `0` is falsy. -/
def jsOrInt (x d : Int) : Int := if x = 0 then d else x

/-- Line 107: `Math.min(this.currentPage, totalPages) || 1`. -/
def clampPage (req : Int) (tp : Nat) : Int :=
  jsOrInt (min req (tp : Int)) 1

/-- Normalize one `Array.prototype.slice` index: negative indices count from
the end, clamped to `[0, len]`. -/
def jsSliceIdx (len : Nat) (i : Int) : Nat :=
  if i < 0 then ((len : Int) + i).toNat else min i.toNat len

/-- JavaScript `l.slice(s, e)`. -/
def jsSlice {α : Type} (l : List α) (s e : Int) : List α :=
  (l.take (jsSliceIdx l.length e)).drop (jsSliceIdx l.length s)

/-- The output of one `renderTable` computation: the page slice of record
ids, the page count, and the (persisted) current page. -/
structure ViewResult where
  rows : List String
  totalPages : Nat
  page : Int
  deriving DecidableEq, Repr

/-- The pure view computation of `renderTable` (lines 62-110): normalize the
query, sort, filter, compute `totalPages = Math.ceil(n / 13)`, clamp the
requested page, and slice `[(page-1)*13, page*13)`. -/
def computeView (lc : String → String → Ordering) (ds : DataSet) (raw : String)
    (col : Option String) (asc : Bool) (reqPage : Int) : ViewResult :=
  let q := normalizeQuery raw
  let filtered := filteredRecords lc ds q col asc
  let totalPages := (filtered.length + (recordsPerPage - 1)) / recordsPerPage
  let page := clampPage reqPage totalPages
  let start := (page - 1) * (recordsPerPage : Int)
  ⟨jsSlice filtered start (start + (recordsPerPage : Int)), totalPages, page⟩

/-- The view plus the highlighted cell texts of the rendered rows
(lines 113-124: `getFormattedValue(column.name) || ""` passed through
`highlightText` with the normalized query). -/
def renderView (lc : String → String → Ordering) (ds : DataSet) (raw : String)
    (col : Option String) (asc : Bool) (reqPage : Int) :
    ViewResult × List (List (Option String)) :=
  let q := normalizeQuery raw
  let v := computeView lc ds raw col asc reqPage
  (v, v.rows.map (fun rid => ds.columns.map (fun c => jsHighlight (fmtOrEmpty ds rid c.name) q)))

/-! ### Concrete instances used by witnesses and counterexamples -/

/-- A concrete stand-in for `localeCompare`: compare by string length.  Any
function can play the role of the abstract locale comparator; this one
satisfies the comparator laws and distinguishes keys of different lengths. -/
def lcLen (a b : String) : Ordering := compare a.length b.length

/-- A dataset whose single declared column is `fullname` but whose record has
no formatted values at all. -/
def dsNoVals : DataSet :=
  ⟨[⟨"fullname", "Full Name"⟩], ["r1"], fun _ _ => none⟩

/-- A small two-row dataset with `fullname` declared and always present. -/
def dsTwo : DataSet :=
  ⟨[⟨"fullname", "Full Name"⟩, ⟨"email", "Email"⟩], ["r1", "r2"],
   fun rid c =>
     if c = "fullname" then
       (if rid = "r1" then some "Alice Smith" else some "Tara Young")
     else if c = "email" then
       (if rid = "r1" then some "alice@example.com" else none)
     else none⟩

/-- A three-row dataset for the sort claims: column `k` has keys of pairwise
distinct lengths. -/
def dsKeys : DataSet :=
  ⟨[⟨"k", "K"⟩], ["r1", "r2", "r3"],
   fun rid c =>
     if c = "k" then
       (if rid = "r1" then some "bb" else if rid = "r2" then some "ccc" else some "a")
     else none⟩

/-- A three-row dataset for the sort stability claim: rows `r2` and `r3` have
keys of equal length, hence equal under `lcLen`. -/
def dsTies : DataSet :=
  ⟨[⟨"k", "K"⟩], ["r1", "r2", "r3"],
   fun rid c =>
     if c = "k" then
       (if rid = "r1" then some "bb" else if rid = "r2" then some "x" else some "y")
     else none⟩

end ContactsControl

namespace ContactsControl

/-- C8: For every state and every column C, the header-click transition
satisfies: if the current sort column already equals C, the direction flag is
negated and the sort column is unchanged; otherwise the sort column becomes C
and the direction becomes ascending (true). -/
theorem sortTable_transition (s : SortState) (c : String) :
    (s.col = some c → sortTable s c = ⟨s.col, !s.asc⟩) ∧
    (s.col ≠ some c → sortTable s c = ⟨some c, true⟩) := by
  constructor
  · intro h
    simp [sortTable, h]
  · intro h
    simp [sortTable, h]

/-- Witness for C8: the transition evaluated on a concrete state, both when
the clicked column is the current one and when it is not. -/
theorem sortTable_transition_witness :
    sortTable ⟨some "fullname", true⟩ "fullname" = ⟨some "fullname", false⟩ ∧
    sortTable ⟨some "fullname", true⟩ "email" = ⟨some "email", true⟩ :=
  ⟨(sortTable_transition ⟨some "fullname", true⟩ "fullname").1 (by decide),
   (sortTable_transition ⟨some "fullname", true⟩ "email").2 (by decide)⟩

/-- C9: at most one column has a non-empty sort indicator; the indicator is
the ascending mark exactly when the column is the current sort column and the
direction is ascending, the descending mark exactly when it is the current
sort column and the direction is descending, and empty for every other
column; in the initial state (before any header click) every indicator is
empty. -/
theorem getSortIndicator_spec (s : SortState) (c c₁ c₂ : String) :
    (getSortIndicator s c = "▲" ↔ s.col = some c ∧ s.asc = true) ∧
    (getSortIndicator s c = "▼" ↔ s.col = some c ∧ s.asc = false) ∧
    (s.col ≠ some c → getSortIndicator s c = "") ∧
    (getSortIndicator s c₁ ≠ "" → getSortIndicator s c₂ ≠ "" → c₁ = c₂) ∧
    getSortIndicator initSortState c = "" := by
  refine ⟨?_, ?_, ?_, ?_, ?_⟩
  · constructor
    · intro h
      by_cases hc : s.col = some c
      · refine ⟨hc, ?_⟩
        cases hasc : s.asc
        · simp [getSortIndicator, hc, hasc] at h
        · rfl
      · simp [getSortIndicator, hc] at h
    · rintro ⟨hc, hasc⟩
      simp [getSortIndicator, hc, hasc]
  · constructor
    · intro h
      by_cases hc : s.col = some c
      · refine ⟨hc, ?_⟩
        cases hasc : s.asc
        · rfl
        · simp [getSortIndicator, hc, hasc] at h
      · simp [getSortIndicator, hc] at h
    · rintro ⟨hc, hasc⟩
      simp [getSortIndicator, hc, hasc]
  · intro h
    simp [getSortIndicator, h]
  · intro h1 h2
    by_cases hc1 : s.col = some c₁
    · by_cases hc2 : s.col = some c₂
      · rw [hc1] at hc2
        exact Option.some.inj hc2
      · exact absurd (by simp [getSortIndicator, hc2]) h2
    · exact absurd (by simp [getSortIndicator, hc1]) h1
  · rfl

/-- C1 (code evaluated at the failing inputs): `highlightText` interpolates
the raw query into a `RegExp`, so query characters are NOT treated as literal
text: the query `"("` makes the `RegExp` constructor throw (modelled as
`none`), and the query `"."` rewrites a value that does not contain `"."` at
all — it matches every character instead of literal occurrences. -/
theorem highlight_not_literal_bug :
    jsHighlight "x" "(" = none ∧
    containsCI "abc" "." = false ∧
    jsHighlight "abc" "." =
      some "<span class=\"highlight\">a</span><span class=\"highlight\">b</span><span class=\"highlight\">c</span>" := by
  refine ⟨by decide, by decide, by decide⟩

/-- C6 (code evaluated at the failing input): for the value `"ab"` and the
query `"."`, the value does not contain the query as a substring, yet the
highlighting operation does not return the value unchanged — the unescaped
`'.'` matches and wraps every character. -/
theorem highlight_roundtrip_bug :
    containsCI "ab" "." = false ∧
    jsHighlight "ab" "." ≠ some "ab" ∧
    jsHighlight "ab" "." =
      some "<span class=\"highlight\">a</span><span class=\"highlight\">b</span>" := by
  refine ⟨by decide, by decide, by decide⟩

/-- Witness for C9: indicator characterization evaluated on a concrete state
with sort column `"fullname"` descending. -/
theorem getSortIndicator_spec_witness :
    getSortIndicator ⟨some "fullname", false⟩ "fullname" = "▼" ∧
    getSortIndicator ⟨some "fullname", false⟩ "email" = "" := by
  have h := getSortIndicator_spec ⟨some "fullname", false⟩ "fullname" "fullname" "email"
  have h' := getSortIndicator_spec ⟨some "fullname", false⟩ "email" "fullname" "email"
  exact ⟨h.2.1.mpr ⟨rfl, rfl⟩, h'.2.2.1 (by decide)⟩

/-! ### Filter lemmas -/

/-- The empty pattern occurs in every list. -/
theorem hasSub_nil (l : List Char) : hasSub [] l = true := by
  cases l <;> simp [hasSub]

/-- Every string `includes` the empty string. -/
theorem jsIncludes_empty (s : String) : jsIncludes s "" = true := by
  unfold jsIncludes
  exact hasSub_nil _

/-- Unfolding of one column clause of the `some(...)` filter branch. -/
theorem colMatches_iff (ds : DataSet) (q rid : String) (c : Column) :
    colMatches ds q rid c = true ↔
      ∃ v, ds.fmtVal rid c.name = some v ∧ jsIncludes (jsToLower v) q = true := by
  cases h : ds.fmtVal rid c.name <;> simp [colMatches, h]

/-- Record ids are preserved by the sorting step. -/
theorem mem_sortRecords (lc : String → String → Ordering) (ds : DataSet)
    (col : Option String) (asc : Bool) (rid : String) :
    rid ∈ sortRecords lc ds col asc ↔ rid ∈ ds.sortedRecordIds := by
  cases col with
  | none => exact Iff.rfl
  | some c => exact List.mem_mergeSort

/-- C2: a row appears in the filtered result iff the formatted value of the
primary `fullname` column (absent compared as the empty string) or the
formatted value of some declared column contains the query case-insensitively;
the empty query matches every row, and an absent formatted value never matches
a non-empty query.  The hypothesis `jsToLower q = q` records that the filter
receives the already-lowercased query. -/
theorem filter_correct (lc : String → String → Ordering) (ds : DataSet)
    (col : Option String) (asc : Bool) (q : String) (hq : jsToLower q = q)
    (rid : String) :
    (rid ∈ filteredRecords lc ds q col asc ↔
      rid ∈ sortRecords lc ds col asc ∧
        (containsCI (fmtOrEmpty ds rid "fullname") q = true ∨
         ∃ c ∈ ds.columns, ∃ v, ds.fmtVal rid c.name = some v ∧ containsCI v q = true)) ∧
    (q = "" → rowMatches ds q rid = true) ∧
    (∀ c : Column, q ≠ "" → ds.fmtVal rid c.name = none → colMatches ds q rid c = false) := by
  have hci : ∀ v : String, containsCI v q = jsIncludes (jsToLower v) q := by
    intro v
    unfold containsCI
    rw [hq]
  refine ⟨?_, ?_, ?_⟩
  · rw [filteredRecords, List.mem_filter]
    constructor
    · rintro ⟨hmem, hmatch⟩
      refine ⟨hmem, ?_⟩
      rw [rowMatches, Bool.or_eq_true] at hmatch
      rcases hmatch with h | h
      · exact Or.inl (by rw [hci]; exact h)
      · rw [anyColMatches, List.any_eq_true] at h
        obtain ⟨c, hc, hcm⟩ := h
        obtain ⟨v, hv, hvq⟩ := (colMatches_iff ds q rid c).mp hcm
        exact Or.inr ⟨c, hc, v, hv, by rw [hci]; exact hvq⟩
    · rintro ⟨hmem, hmatch⟩
      refine ⟨hmem, ?_⟩
      rw [rowMatches, Bool.or_eq_true]
      rcases hmatch with h | ⟨c, hc, v, hv, hvq⟩
      · exact Or.inl (by rw [← hci]; exact h)
      · refine Or.inr ?_
        rw [anyColMatches, List.any_eq_true]
        exact ⟨c, hc, (colMatches_iff ds q rid c).mpr ⟨v, hv, by rw [← hci]; exact hvq⟩⟩
  · intro h
    subst h
    simp [rowMatches, jsIncludes_empty]
  · intro c _ habsent
    simp [colMatches, habsent]

/-- Witness for C2: the characterization evaluated on the concrete dataset
`dsTwo` with the lowercase query `"tara"`. -/
theorem filter_correct_witness :
    jsToLower "tara" = "tara" ∧
    ("r2" ∈ filteredRecords lcLen dsTwo "tara" none true ↔
      "r2" ∈ sortRecords lcLen dsTwo none true ∧
        (containsCI (fmtOrEmpty dsTwo "r2" "fullname") "tara" = true ∨
         ∃ c ∈ dsTwo.columns, ∃ v, dsTwo.fmtVal "r2" c.name = some v ∧
           containsCI v "tara" = true)) :=
  ⟨by decide, (filter_correct lcLen dsTwo none true "tara" (by decide) "r2").1⟩

/-- Counterexample for C7: on a dataset whose only declared column is
`fullname` but whose record has no formatted values, the empty query passes
the row through the two-branch filter (the `fullname` branch compares the
absent value as `""`, which contains `""`), while the any-column branch alone
rejects it (`?.` short-circuits on the absent value).  The two filters
therefore compute different row sets. -/
theorem filter_branches_differ :
    filteredRecords lcLen dsNoVals "" none true = ["r1"] ∧
    (sortRecords lcLen dsNoVals none true).filter (anyColMatches dsNoVals "") = [] ∧
    filteredRecords lcLen dsNoVals "" none true ≠
      (sortRecords lcLen dsNoVals none true).filter (anyColMatches dsNoVals "") := by
  refine ⟨by decide, by decide, by decide⟩

/-- C7 as amended: when `fullname` is among the declared columns and every
row of the recordset has a present `fullname` formatted value, the two-branch
filter computes exactly the rows of the any-column branch alone. -/
theorem filter_fullname_branch_redundant (lc : String → String → Ordering)
    (ds : DataSet) (q : String) (col : Option String) (asc : Bool)
    (hfn : "fullname" ∈ ds.columns.map Column.name)
    (hpresent : ∀ rid ∈ ds.sortedRecordIds, (ds.fmtVal rid "fullname").isSome) :
    filteredRecords lc ds q col asc =
      (sortRecords lc ds col asc).filter (anyColMatches ds q) := by
  unfold filteredRecords
  apply List.filter_congr
  intro rid hrid
  have hmem : rid ∈ ds.sortedRecordIds := (mem_sortRecords lc ds col asc rid).mp hrid
  obtain ⟨v, hv⟩ := Option.isSome_iff_exists.mp (hpresent rid hmem)
  have himp : jsIncludes (jsToLower (fmtOrEmpty ds rid "fullname")) q = true →
      anyColMatches ds q rid = true := by
    intro hA
    obtain ⟨c, hcmem, hcname⟩ := List.mem_map.mp hfn
    rw [anyColMatches, List.any_eq_true]
    refine ⟨c, hcmem, (colMatches_iff ds q rid c).mpr ⟨v, by rw [hcname]; exact hv, ?_⟩⟩
    rw [fmtOrEmpty, hv] at hA
    exact hA
  rw [rowMatches]
  cases hB : anyColMatches ds q rid with
  | false =>
    cases hA : jsIncludes (jsToLower (fmtOrEmpty ds rid "fullname")) q with
    | false => rfl
    | true => exact absurd (himp hA) (by rw [hB]; exact Bool.false_ne_true)
  | true => simp

/-- Witness for C7's amended statement: the two filters agree on `dsTwo`,
where `fullname` is declared and always present. -/
theorem filter_fullname_branch_redundant_witness :
    filteredRecords lcLen dsTwo "tara" none true =
      (sortRecords lcLen dsTwo none true).filter (anyColMatches dsTwo "tara") :=
  filter_fullname_branch_redundant lcLen dsTwo "tara" none true (by decide) (by decide)

/-! ### Pagination lemmas -/

/-- `slice(s, s + k)` with a non-negative start is `drop s` then `take k`. -/
theorem jsSlice_ofNat {α : Type} (l : List α) (s k : Nat) :
    jsSlice l (s : Int) ((s : Int) + (k : Int)) = (l.drop s).take k := by
  unfold jsSlice jsSliceIdx
  rw [if_neg (by omega), if_neg (by omega)]
  have hs : ((s : Int)).toNat = s := rfl
  have hsk : (((s : Int)) + (k : Int)).toNat = s + k := by omega
  rw [hs, hsk]
  rcases le_or_lt l.length s with hle | hlt
  · have h1 : min s l.length = l.length := Nat.min_eq_right hle
    have h2 : min (s + k) l.length = l.length := Nat.min_eq_right (by omega)
    rw [h1, h2, List.take_length]
    rw [List.drop_eq_nil_of_le hle, List.drop_eq_nil_of_le (le_refl _)]
    simp
  · have h1 : min s l.length = s := Nat.min_eq_left (Nat.le_of_lt hlt)
    rw [h1, List.take_drop]
    rcases le_or_lt (s + k) l.length with h2le | h2lt
    · rw [Nat.min_eq_left h2le]
    · rw [Nat.min_eq_right (Nat.le_of_lt h2lt), List.take_length,
        List.take_of_length_le (Nat.le_of_lt h2lt)]

/-- The clamp of line 107 on a non-negative request: the result is in
`[1, max(totalPages, 1)]` and re-requesting the nearest in-range page gives
the same result. -/
theorem clampPage_nonneg_spec (req : Int) (tp : Nat) (h : 0 ≤ req) :
    1 ≤ clampPage req tp ∧ clampPage req tp ≤ max (tp : Int) 1 ∧
    clampPage (max 1 (min req (max (tp : Int) 1))) tp = clampPage req tp := by
  unfold clampPage jsOrInt
  split_ifs <;> omega

/-- `computeView` unfolded to its components. -/
theorem computeView_eq (lc : String → String → Ordering) (ds : DataSet)
    (raw : String) (col : Option String) (asc : Bool) (req : Int) :
    computeView lc ds raw col asc req =
      ⟨jsSlice (filteredRecords lc ds (normalizeQuery raw) col asc)
          ((clampPage req
              (((filteredRecords lc ds (normalizeQuery raw) col asc).length + 12) / 13) - 1) * 13)
          ((clampPage req
              (((filteredRecords lc ds (normalizeQuery raw) col asc).length + 12) / 13) - 1) * 13 + 13),
        ((filteredRecords lc ds (normalizeQuery raw) col asc).length + 12) / 13,
        clampPage req
          (((filteredRecords lc ds (normalizeQuery raw) col asc).length + 12) / 13)⟩ := rfl

/-- C3: with page size 13, `totalPages` is `ceil(n/13)` (stated by its value
and by the two bounding inequalities), the returned page is clamped, the rows
are the contiguous slice `[(page-1)*13, page*13)` of the filtered-and-sorted
sequence, their number is exactly `min(13, n - (page-1)*13)`, and the slice is
empty when `n = 0`. -/
theorem computeView_pagination (lc : String → String → Ordering) (ds : DataSet)
    (raw : String) (col : Option String) (asc : Bool) (req : Int)
    (hreq : 1 ≤ req) (F : List String) (n tp : Nat) (p : Int) (V : ViewResult)
    (hF : F = filteredRecords lc ds (normalizeQuery raw) col asc)
    (hn : n = F.length) (htp : tp = (n + 12) / 13) (hp : p = clampPage req tp)
    (hV : V = computeView lc ds raw col asc req) :
    V.totalPages = tp ∧
    n ≤ 13 * tp ∧ 13 * tp < n + 13 ∧
    V.page = p ∧ 1 ≤ p ∧ p ≤ max (tp : Int) 1 ∧
    V.rows = (F.drop ((p.toNat - 1) * 13)).take 13 ∧
    V.rows.length = min 13 (n - (p.toNat - 1) * 13) ∧
    (n = 0 → V.rows = []) := by
  subst hV hp htp hn hF
  rw [computeView_eq]
  obtain ⟨hp1, hp2, -⟩ :=
    clampPage_nonneg_spec req
      (((filteredRecords lc ds (normalizeQuery raw) col asc).length + 12) / 13) (by omega)
  have hstart :
      ((clampPage req
          (((filteredRecords lc ds (normalizeQuery raw) col asc).length + 12) / 13) - 1) * 13 : Int) =
        (((clampPage req
            (((filteredRecords lc ds (normalizeQuery raw) col asc).length + 12) / 13)).toNat - 1) * 13 : Nat) := by
    omega
  have hrows :
      jsSlice (filteredRecords lc ds (normalizeQuery raw) col asc)
          ((clampPage req
              (((filteredRecords lc ds (normalizeQuery raw) col asc).length + 12) / 13) - 1) * 13)
          ((clampPage req
              (((filteredRecords lc ds (normalizeQuery raw) col asc).length + 12) / 13) - 1) * 13 + 13) =
        ((filteredRecords lc ds (normalizeQuery raw) col asc).drop
            (((clampPage req
                (((filteredRecords lc ds (normalizeQuery raw) col asc).length + 12) / 13)).toNat - 1) * 13)).take 13 := by
    rw [hstart]
    exact_mod_cast jsSlice_ofNat (filteredRecords lc ds (normalizeQuery raw) col asc)
      (((clampPage req
          (((filteredRecords lc ds (normalizeQuery raw) col asc).length + 12) / 13)).toNat - 1) * 13) 13
  refine ⟨rfl, by omega, by omega, rfl, hp1, hp2, hrows, ?_, ?_⟩
  · show (jsSlice (filteredRecords lc ds (normalizeQuery raw) col asc) _ _).length = _
    rw [hrows]
    simp
  · intro h0
    show jsSlice (filteredRecords lc ds (normalizeQuery raw) col asc) _ _ = []
    rw [hrows]
    have hnil : filteredRecords lc ds (normalizeQuery raw) col asc = [] :=
      List.length_eq_zero.mp h0
    simp [hnil]

/-- Witness for C3: the pagination invariant applied to `dsTwo` with the
empty query and requested page 1. -/
theorem computeView_pagination_witness :
    (1 : Int) ≤ 1 ∧
    (computeView lcLen dsTwo "" none true 1).totalPages =
      (((filteredRecords lcLen dsTwo (normalizeQuery "") none true).length + 12) / 13) :=
  ⟨by decide,
   (computeView_pagination lcLen dsTwo "" none true 1 (by decide) _ _ _ _ _
      rfl rfl rfl rfl rfl).1⟩

/-- Counterexample for C4: `Math.min(currentPage, totalPages) || 1` only
rescues the value `0`; a requested page of `-1` is truthy, escapes the clamp,
and is returned as the current page, violating `1 <= page`. -/
theorem computeView_negative_page_escapes_clamp :
    (computeView lcLen dsTwo "" none true (-1)).page = -1 ∧
    ¬(1 ≤ (computeView lcLen dsTwo "" none true (-1)).page) := by
  refine ⟨by decide, by decide⟩

/-- C4 as amended: for every non-negative requested page — including requests
greater than `totalPages` and the request 0 — the returned page satisfies
`1 <= page <= max(totalPages, 1)` and the whole view equals the one obtained
by requesting the nearest in-range page. -/
theorem computeView_clamp (lc : String → String → Ordering) (ds : DataSet)
    (raw : String) (col : Option String) (asc : Bool) (req : Int)
    (hreq : 0 ≤ req) :
    1 ≤ (computeView lc ds raw col asc req).page ∧
    (computeView lc ds raw col asc req).page ≤
      max ((computeView lc ds raw col asc req).totalPages : Int) 1 ∧
    computeView lc ds raw col asc req =
      computeView lc ds raw col asc
        (max 1 (min req ((max ((computeView lc ds raw col asc req).totalPages : Int) 1)))) := by
  obtain ⟨hp1, hp2, hp3⟩ :=
    clampPage_nonneg_spec req
      (((filteredRecords lc ds (normalizeQuery raw) col asc).length + 12) / 13) hreq
  rw [computeView_eq lc ds raw col asc req]
  refine ⟨hp1, hp2, ?_⟩
  rw [computeView_eq lc ds raw col asc
    (max 1 (min req ((max ((((filteredRecords lc ds (normalizeQuery raw) col asc).length + 12) / 13 : Nat) : Int) 1)))), hp3]

/-- Witness for C4's amended statement: an over-range request (page 99 of a
one-page view) is clamped back into range. -/
theorem computeView_clamp_witness :
    (0 : Int) ≤ 99 ∧ 1 ≤ (computeView lcLen dsTwo "" none true 99).page :=
  ⟨by decide, (computeView_clamp lcLen dsTwo "" none true 99 (by decide)).1⟩

/-- C10: the view computation depends on the raw query only through its
trimmed, lowercased form — two raw queries with the same normalization yield
the same filtered rows, the same pagination metadata, and the same
highlighted cell output. -/
theorem view_depends_on_normalized_query (lc : String → String → Ordering)
    (ds : DataSet) (col : Option String) (asc : Bool) (req : Int)
    (raw1 raw2 : String) (h : normalizeQuery raw1 = normalizeQuery raw2) :
    renderView lc ds raw1 col asc req = renderView lc ds raw2 col asc req := by
  unfold renderView computeView
  rw [h]

/-! ### Sorting lemmas -/

/-- `cmpLe` is "comparator result `<= 0`". -/
theorem cmpLe_iff (o : Ordering) : cmpLe o = true ↔ o ≠ Ordering.gt := by
  cases o <;> decide

/-- `swap` preserves being `eq`. -/
theorem swap_eq_eq_iff (o : Ordering) : o.swap = Ordering.eq ↔ o = Ordering.eq := by
  cases o <;> decide

/-- Two permutations of each other that are both pairwise-ordered by a
relation without 2-cycles are the same list. -/
theorem perm_pairwise_asymm_eq {α : Type} {r : α → α → Prop}
    (asym : ∀ a b, r a b → r b a → False) :
    ∀ {l₁ l₂ : List α}, l₁.Perm l₂ → l₁.Pairwise r → l₂.Pairwise r → l₁ = l₂ := by
  intro l₁
  induction l₁ with
  | nil =>
    intro l₂ hp _ _
    exact (List.Perm.eq_nil hp.symm).symm
  | cons a t ih =>
    intro l₂ hp hw1 hw2
    cases l₂ with
    | nil => exact (List.cons_ne_nil a t (List.Perm.eq_nil hp)).elim
    | cons b t₂ =>
      have hab : a = b := by
        by_contra hne
        have ha3 : a ∈ t₂ := by
          rcases List.mem_cons.mp (hp.mem_iff.mp (List.mem_cons_self a t)) with h | h
          · exact absurd h hne
          · exact h
        have hb2 : b ∈ t := by
          rcases List.mem_cons.mp (hp.mem_iff.mpr (List.mem_cons_self b t₂)) with h | h
          · exact absurd h.symm hne
          · exact h
        exact asym a b ((List.pairwise_cons.mp hw1).1 b hb2)
          ((List.pairwise_cons.mp hw2).1 a ha3)
      subst hab
      rw [ih hp.cons_inv (List.pairwise_cons.mp hw1).2 (List.pairwise_cons.mp hw2).2]

/-- C5: provided the abstract locale comparator `lc` is sign-antisymmetric and
its induced `<=` is transitive, the sort of lines 79-88 is stable — two rows
whose keys (formatted values of the sort column, absent compared as `""`)
compare equal keep their relative input order in both directions — and on
pairwise distinct keys the descending order is exactly the reverse of the
ascending order. -/
theorem sort_stable_and_reversal (lc : String → String → Ordering)
    (h1 : ∀ x y, lc y x = (lc x y).swap)
    (h2 : ∀ x y z, lc x y ≠ Ordering.gt → lc y z ≠ Ordering.gt → lc x z ≠ Ordering.gt)
    (ds : DataSet) (c : String) :
    (∀ a b, [a, b].Sublist ds.sortedRecordIds →
      lc (sortKey ds c a) (sortKey ds c b) = Ordering.eq →
      ([a, b].Sublist (sortRecords lc ds (some c) true) ∧
       [a, b].Sublist (sortRecords lc ds (some c) false))) ∧
    ((ds.sortedRecordIds.Pairwise fun a b =>
        lc (sortKey ds c a) (sortKey ds c b) ≠ Ordering.eq) →
      sortRecords lc ds (some c) false = (sortRecords lc ds (some c) true).reverse) := by
  have easc : sortRecords lc ds (some c) true =
      ds.sortedRecordIds.mergeSort
        (fun a b => cmpLe (lc (sortKey ds c a) (sortKey ds c b))) := by
    simp [sortRecords]
  have edesc : sortRecords lc ds (some c) false =
      ds.sortedRecordIds.mergeSort
        (fun a b => cmpLe (lc (sortKey ds c b) (sortKey ds c a))) := by
    simp [sortRecords]
  have transA : ∀ a b d : String,
      cmpLe (lc (sortKey ds c a) (sortKey ds c b)) = true →
      cmpLe (lc (sortKey ds c b) (sortKey ds c d)) = true →
      cmpLe (lc (sortKey ds c a) (sortKey ds c d)) = true := by
    intro a b d hab hbd
    rw [cmpLe_iff] at hab hbd ⊢
    exact h2 _ _ _ hab hbd
  have transD : ∀ a b d : String,
      cmpLe (lc (sortKey ds c b) (sortKey ds c a)) = true →
      cmpLe (lc (sortKey ds c d) (sortKey ds c b)) = true →
      cmpLe (lc (sortKey ds c d) (sortKey ds c a)) = true := by
    intro a b d hab hbd
    rw [cmpLe_iff] at hab hbd ⊢
    exact h2 _ _ _ hbd hab
  have total : ∀ x y : String, (cmpLe (lc x y) || cmpLe (lc y x)) = true := by
    intro x y
    rw [Bool.or_eq_true, cmpLe_iff, cmpLe_iff]
    by_cases h : lc x y = Ordering.gt
    · right
      rw [h1 x y, h]
      decide
    · exact Or.inl h
  constructor
  · intro a b hsub heq
    constructor
    · rw [easc]
      apply List.sublist_mergeSort transA (fun x y => total _ _) ?_ hsub
      refine List.pairwise_cons.mpr ⟨?_, List.pairwise_singleton _ _⟩
      intro y hy
      rw [List.mem_singleton.mp hy]
      show cmpLe (lc (sortKey ds c a) (sortKey ds c b)) = true
      rw [heq]
      rfl
    · rw [edesc]
      apply List.sublist_mergeSort transD (fun x y => total _ _) ?_ hsub
      refine List.pairwise_cons.mpr ⟨?_, List.pairwise_singleton _ _⟩
      intro y hy
      rw [List.mem_singleton.mp hy]
      show cmpLe (lc (sortKey ds c b) (sortKey ds c a)) = true
      rw [h1 (sortKey ds c a) (sortKey ds c b), heq]
      rfl
  · intro hdist
    rw [easc, edesc]
    have hsymNe : ∀ {x y : String},
        lc (sortKey ds c x) (sortKey ds c y) ≠ Ordering.eq →
        lc (sortKey ds c y) (sortKey ds c x) ≠ Ordering.eq := by
      intro x y h
      rw [h1 (sortKey ds c x) (sortKey ds c y), Ne, swap_eq_eq_iff]
      exact h
    have permA := List.mergeSort_perm ds.sortedRecordIds
      (fun a b => cmpLe (lc (sortKey ds c a) (sortKey ds c b)))
    have permD := List.mergeSort_perm ds.sortedRecordIds
      (fun a b => cmpLe (lc (sortKey ds c b) (sortKey ds c a)))
    have sortedA := List.sorted_mergeSort transA (fun x y => total _ _)
      ds.sortedRecordIds
    have sortedD := List.sorted_mergeSort transD (fun x y => total _ _)
      ds.sortedRecordIds
    have neA : (ds.sortedRecordIds.mergeSort
        (fun a b => cmpLe (lc (sortKey ds c a) (sortKey ds c b)))).Pairwise
          (fun a b => lc (sortKey ds c a) (sortKey ds c b) ≠ Ordering.eq) :=
      (permA.pairwise_iff hsymNe).mpr hdist
    have neD : (ds.sortedRecordIds.mergeSort
        (fun a b => cmpLe (lc (sortKey ds c b) (sortKey ds c a)))).Pairwise
          (fun a b => lc (sortKey ds c a) (sortKey ds c b) ≠ Ordering.eq) :=
      (permD.pairwise_iff hsymNe).mpr hdist
    have strictA : (ds.sortedRecordIds.mergeSort
        (fun a b => cmpLe (lc (sortKey ds c a) (sortKey ds c b)))).Pairwise
          (fun a b => lc (sortKey ds c a) (sortKey ds c b) = Ordering.lt) := by
      refine (sortedA.and neA).imp ?_
      intro a b hab
      rcases h : lc (sortKey ds c a) (sortKey ds c b) with _ | _ | _
      · rfl
      · exact absurd h hab.2
      · have hle := hab.1
        rw [h] at hle
        exact absurd hle (by decide)
    have strictD : (ds.sortedRecordIds.mergeSort
        (fun a b => cmpLe (lc (sortKey ds c b) (sortKey ds c a)))).Pairwise
          (fun a b => lc (sortKey ds c b) (sortKey ds c a) = Ordering.lt) := by
      refine (sortedD.and neD).imp ?_
      intro a b hab
      have hne : lc (sortKey ds c b) (sortKey ds c a) ≠ Ordering.eq := hsymNe hab.2
      rcases h : lc (sortKey ds c b) (sortKey ds c a) with _ | _ | _
      · rfl
      · exact absurd h hne
      · have hle := hab.1
        rw [h] at hle
        exact absurd hle (by decide)
    have strictRevA : ((ds.sortedRecordIds.mergeSort
        (fun a b => cmpLe (lc (sortKey ds c a) (sortKey ds c b)))).reverse).Pairwise
          (fun a b => lc (sortKey ds c b) (sortKey ds c a) = Ordering.lt) :=
      List.pairwise_reverse.mpr strictA
    have permDA : (ds.sortedRecordIds.mergeSort
        (fun a b => cmpLe (lc (sortKey ds c b) (sortKey ds c a)))).Perm
          ((ds.sortedRecordIds.mergeSort
            (fun a b => cmpLe (lc (sortKey ds c a) (sortKey ds c b)))).reverse) :=
      permD.trans (permA.symm.trans (List.reverse_perm _).symm)
    have asymS : ∀ a b : String,
        lc (sortKey ds c b) (sortKey ds c a) = Ordering.lt →
        lc (sortKey ds c a) (sortKey ds c b) = Ordering.lt → False := by
      intro a b hab hba
      rw [h1 (sortKey ds c b) (sortKey ds c a), hab] at hba
      exact absurd hba (by decide)
    exact perm_pairwise_asymm_eq asymS permDA strictD strictRevA

/-- Sign-antisymmetry of the length comparator. -/
theorem lcLen_swap (x y : String) : lcLen y x = (lcLen x y).swap :=
  (Nat.compare_swap x.length y.length).symm

/-- Transitivity of the `<=` induced by the length comparator. -/
theorem lcLen_trans (x y z : String) :
    lcLen x y ≠ Ordering.gt → lcLen y z ≠ Ordering.gt → lcLen x z ≠ Ordering.gt := by
  unfold lcLen
  intro h1 h2
  rw [Ne, Nat.compare_eq_gt] at h1 h2 ⊢
  omega

/-- Witness for C5: on `dsTies` the tied rows `r2`, `r3` keep their order in
both directions; on `dsKeys` (pairwise distinct keys) descending is the exact
reverse of ascending. -/
theorem sort_stable_and_reversal_witness :
    (["r2", "r3"].Sublist (sortRecords lcLen dsTies (some "k") true) ∧
     ["r2", "r3"].Sublist (sortRecords lcLen dsTies (some "k") false)) ∧
    sortRecords lcLen dsKeys (some "k") false =
      (sortRecords lcLen dsKeys (some "k") true).reverse :=
  ⟨(sort_stable_and_reversal lcLen lcLen_swap lcLen_trans dsTies "k").1 "r2" "r3"
      (by decide) (by decide),
   (sort_stable_and_reversal lcLen lcLen_swap lcLen_trans dsKeys "k").2 (by decide)⟩

/-- Witness for C10: `"  TARA "` and `"tara"` normalize alike and render the
same view of `dsTwo`. -/
theorem view_depends_on_normalized_query_witness :
    normalizeQuery "  TARA " = normalizeQuery "tara" ∧
    renderView lcLen dsTwo "  TARA " none true 1 =
      renderView lcLen dsTwo "tara" none true 1 :=
  ⟨by decide,
   view_depends_on_normalized_query lcLen dsTwo none true 1 "  TARA " "tara" (by decide)⟩

/-! ### Highlight round-trip on the literal fragment

The round-trip property the spec states for highlighting does hold on the
queries the defective regex treats literally; the following supports the
reading of the raw-regex interpolation as the one slip. -/

/-- A successful match splits the input and consumes one character per token. -/
theorem matchAt_some (ts : List RTok) :
    ∀ l m r, matchAt ts l = some (m, r) → m ++ r = l ∧ m.length = ts.length := by
  induction ts with
  | nil =>
    intro l m r h
    simp only [matchAt, Option.some.injEq, Prod.mk.injEq] at h
    simp [← h.1, ← h.2]
  | cons t ts ih =>
    intro l m r h
    cases l with
    | nil => simp [matchAt] at h
    | cons c cs =>
      by_cases htok : matchTok t c
      · simp only [matchAt, htok, if_pos, Option.map_eq_some'] at h
        obtain ⟨⟨m', r'⟩, hmr, heq⟩ := h
        obtain ⟨happ, hlen⟩ := ih cs m' r' hmr
        obtain ⟨hm, hr⟩ := Prod.mk.injEq .. ▸ heq
        subst hm hr
        constructor
        · rw [List.cons_append, happ]
        · simp [hlen]
      · simp [matchAt, htok] at h

/-- Removing the highlight markers from the scan output restores the input. -/
theorem scanFuel_strip (ts : List RTok) (hts : ts ≠ []) :
    ∀ fuel l, l.length < fuel → stripSegs (scanFuel fuel ts l) = l := by
  intro fuel
  induction fuel with
  | zero => intro l h; omega
  | succ n ih =>
    intro l hl
    cases hm : matchAt ts l with
    | some p =>
      obtain ⟨m, r⟩ := p
      obtain ⟨happ, hlen⟩ := matchAt_some ts l m r hm
      have hmne : m ≠ [] := by
        intro h0
        subst h0
        cases ts with
        | nil => exact hts rfl
        | cons t ts => simp at hlen
      have hr : r.length < n := by
        have := congrArg List.length happ
        simp only [List.length_append] at this
        have hm1 : 1 ≤ m.length := by
          cases m with
          | nil => exact absurd rfl hmne
          | cons a as => simp
        omega
      simp only [scanFuel, hm]
      show stripSeg (Seg.hl m) ++ stripSegs (scanFuel n ts r) = l
      rw [show stripSeg (Seg.hl m) = m from rfl, ih r hr, happ]
    | none =>
      cases l with
      | nil => simp [scanFuel, hm, stripSegs]
      | cons c cs =>
        simp only [scanFuel, hm]
        show stripSeg (Seg.plain c) ++ stripSegs (scanFuel n ts cs) = c :: cs
        rw [show stripSeg (Seg.plain c) = [c] from rfl,
          ih cs (by simp at hl; omega)]
        rfl

/-- A parse of a metacharacter-free query is the list of its literal tokens. -/
theorem parseTokens_literal (l : List Char) (h : ∀ c ∈ l, regexMeta c = false) :
    parseTokens l = some (l.map RTok.lit) := by
  induction l with
  | nil => rfl
  | cons c cs ih =>
    have hc := h c (List.mem_cons_self c cs)
    have hdot : ¬(c = '.') := by
      intro h0
      subst h0
      exact absurd hc (by decide)
    simp [parseTokens, hdot, hc, ih (fun d hd => h d (List.mem_cons_of_mem c hd))]

/-- What an all-literal pattern matches is the query up to case. -/
theorem matchAt_lit_some (qc : List Char) :
    ∀ l m r, matchAt (qc.map RTok.lit) l = some (m, r) →
      m.map Char.toLower = qc.map Char.toLower := by
  induction qc with
  | nil =>
    intro l m r h
    simp only [List.map_nil, matchAt, Option.some.injEq, Prod.mk.injEq] at h
    simp [← h.1]
  | cons c qc ih =>
    intro l m r h
    cases l with
    | nil => simp [matchAt] at h
    | cons d ds =>
      by_cases htok : matchTok (RTok.lit c) d
      · simp only [List.map_cons, matchAt, htok, if_pos, Option.map_eq_some'] at h
        obtain ⟨⟨m', r'⟩, hmr, heq⟩ := h
        obtain ⟨hm, hr⟩ := Prod.mk.injEq .. ▸ heq
        subst hm hr
        have hcd : c.toLower = d.toLower := eq_of_beq htok
        simp [ih ds m' r' hmr, hcd]
      · simp [matchAt, htok] at h

/-- An all-literal pattern fails at a position exactly when the lowered query
is not a prefix of the lowered input there. -/
theorem matchAt_lit_none (qc : List Char) :
    ∀ l, matchAt (qc.map RTok.lit) l = none →
      ¬((qc.map Char.toLower) <+: (l.map Char.toLower)) := by
  induction qc with
  | nil => intro l h; simp [matchAt] at h
  | cons c qc ih =>
    intro l h
    cases l with
    | nil =>
      simp only [List.map_nil, List.prefix_nil, List.map_cons]
      intro h0
      simp at h0
    | cons d ds =>
      by_cases htok : matchTok (RTok.lit c) d
      · simp only [List.map_cons, matchAt, htok, if_pos, Option.map_eq_none'] at h
        intro hpre
        rw [List.map_cons, List.map_cons, List.cons_prefix_cons] at hpre
        exact ih ds h hpre.2
      · intro hpre
        rw [List.map_cons, List.map_cons, List.cons_prefix_cons] at hpre
        exact htok (beq_iff_eq.mpr hpre.1)

/-- When the (lowered) query occurs nowhere in the (lowered) value, the scan
leaves every character plain. -/
theorem scanFuel_no_match (qc : List Char) :
    ∀ fuel l, l.length < fuel →
      ¬((qc.map Char.toLower) <:+: (l.map Char.toLower)) →
      scanFuel fuel (qc.map RTok.lit) l = l.map Seg.plain := by
  intro fuel
  induction fuel with
  | zero => intro l h _; omega
  | succ n ih =>
    intro l hl hinf
    cases hm : matchAt (qc.map RTok.lit) l with
    | some p =>
      exfalso
      obtain ⟨m, r⟩ := p
      obtain ⟨happ, -⟩ := matchAt_some _ l m r hm
      have hq := matchAt_lit_some qc l m r hm
      refine hinf (List.IsPrefix.isInfix ?_)
      refine ⟨r.map Char.toLower, ?_⟩
      rw [← hq, ← List.map_append, happ]
    | none =>
      cases l with
      | nil => simp [scanFuel, hm]
      | cons c cs =>
        simp only [scanFuel, hm, List.map_cons]
        rw [ih cs (by simp at hl; omega) ?_]
        intro hinf'
        refine hinf ?_
        rw [List.map_cons]
        exact List.infix_cons hinf'

/-- `hasSub` decides contiguous containment. -/
theorem hasSub_iff (sub : List Char) :
    ∀ l, hasSub sub l = true ↔ sub <:+: l := by
  intro l
  induction l with
  | nil =>
    simp [hasSub, List.isEmpty_iff]
  | cons c t ih =>
    simp [hasSub, List.isPrefixOf_iff_prefix, ih, List.infix_cons_iff]

/-- Rendering an all-plain scan output is the original string. -/
theorem renderSegs_plain (l : List Char) : renderSegs (l.map Seg.plain) = String.mk l := by
  unfold renderSegs
  congr 1
  induction l with
  | nil => rfl
  | cons c t ih => simp only [List.map_cons, List.foldr_cons, ih]; rfl

/-- Rebuilding a string from its characters is the identity. -/
theorem mk_toList (s : String) : String.mk s.toList = s := by
  cases s
  rfl

/-- The highlight round-trip on the literal fragment: for a non-empty query
free of regex metacharacters the pattern parses, removing the highlight
markers from the scan reproduces the value exactly, and a value that does
not contain the query case-insensitively is returned unchanged. -/
theorem highlight_literal_roundtrip (v q : String) (hne : q ≠ "")
    (hmeta : ∀ c ∈ q.toList, regexMeta c = false) :
    parseTokens q.toList = some (q.toList.map RTok.lit) ∧
    jsHighlight v q = some (renderSegs (scan (q.toList.map RTok.lit) v.toList)) ∧
    stripSegs (scan (q.toList.map RTok.lit) v.toList) = v.toList ∧
    (containsCI v q = false → jsHighlight v q = some v) := by
  have hqnil : q.toList ≠ [] := by
    intro h0
    exact hne (((mk_toList q).symm.trans (congrArg String.mk h0)).trans rfl)
  have hts : q.toList.map RTok.lit ≠ [] := fun h0 => hqnil (List.map_eq_nil_iff.mp h0)
  have hparse := parseTokens_literal q.toList hmeta
  have hhl : jsHighlight v q = some (renderSegs (scan (q.toList.map RTok.lit) v.toList)) := by
    unfold jsHighlight
    rw [if_neg hne, hparse]
  refine ⟨hparse, hhl, scanFuel_strip _ hts _ v.toList (by omega), ?_⟩
  intro hnc
  have hinf : ¬((q.toList.map Char.toLower) <:+: (v.toList.map Char.toLower)) := by
    intro hinf'
    have : hasSub (q.toList.map Char.toLower) (v.toList.map Char.toLower) = true :=
      (hasSub_iff _ _).mpr hinf'
    rw [show (q.toList.map Char.toLower) = (jsToLower q).toList from rfl,
      show (v.toList.map Char.toLower) = (jsToLower v).toList from rfl] at this
    rw [containsCI, jsIncludes, this] at hnc
    exact absurd hnc (by decide)
  rw [hhl, scan, scanFuel_no_match q.toList _ v.toList (by omega) hinf,
    renderSegs_plain, mk_toList]

/-- Witness for the literal round-trip: the query `"b"` highlighted inside
`"aBc"` strips back to the value, and `"zz"` leaves `"aBc"` unchanged. -/
theorem highlight_literal_roundtrip_witness :
    ("b" : String) ≠ "" ∧
    stripSegs (scan (("b" : String).toList.map RTok.lit) ("aBc" : String).toList) =
      ("aBc" : String).toList ∧
    jsHighlight "aBc" "zz" = some "aBc" :=
  ⟨by decide,
   (highlight_literal_roundtrip "aBc" "b" (by decide) (by decide)).2.2.1,
   (highlight_literal_roundtrip "aBc" "zz" (by decide) (by decide)).2.2.2 (by decide)⟩

end ContactsControl
